import Mathlib

/-!
Shallow embedding of the webpage-meta-extractor library
(src/webpage-meta-extractor.js, src/webpage-meta.js, src/webpage-favicon.js,
src/webpage-image.js, src/webpage-video.js, src/webpage-feed.js).

The DOM is modelled as a finite list of elements in document order (an
element's identity is its preorder index).  JavaScript strings are Lean
strings, JavaScript numbers are rationals (the extractor only ever produces
finite values from decimal attribute text; non-finite forms are out of scope
and are mapped to "NaN" = none), and fallible operations return Option.
Loops are translated to structural recursions; the one genuinely recursive
procedure (microdata item extraction) is fuel-indexed, with fuel exhaustion
modelling non-termination (stack overflow).
-/

namespace WME

/-- JavaScript String.prototype.trim, over the character list. -/
def jsTrim (s : String) : String :=
  ((s.data.dropWhile Char.isWhitespace).reverse.dropWhile Char.isWhitespace).reverse.asString

/-- JavaScript toLowerCase, over the character list. -/
def jsToLower (s : String) : String :=
  (s.data.map Char.toLower).asString

/-- Worker for jsSplitOnChar. -/
def jsSplitOnCharGo (sep : Char) : List Char → List Char → List String
  | [], cur => [cur.reverse.asString]
  | c :: cs, cur =>
    if c = sep then cur.reverse.asString :: jsSplitOnCharGo sep cs []
    else jsSplitOnCharGo sep cs (c :: cur)

/-- JavaScript String.split with a one-character string separator. -/
def jsSplitOnChar (sep : Char) (s : String) : List String :=
  jsSplitOnCharGo sep s.data []

/-- JavaScript key.startsWith(pfx), stated over the character lists. -/
def jsStartsWith (s pfx : String) : Bool :=
  pfx.data.isPrefixOf s.data

/-- JavaScript key.slice(n), stated over the character lists. -/
def jsSlice (s : String) (n : ℕ) : String :=
  (s.data.drop n).asString

/-- Truthiness of a JavaScript string-or-null value: null/undefined and the
empty string are falsy. -/
def truthy (o : Option String) : Bool :=
  match o with
  | some s => s ≠ ""
  | none => false

/-- JavaScript `x || undefined` on a string attribute value: an absent or
empty string becomes undefined. -/
def orUndef (o : Option String) : Option String :=
  match o with
  | some s => if s ≠ "" then some s else none
  | none => none

/-- Worker for jsSplitWs.  The second argument is `some cur` while a token is
being built and `none` immediately after a separator run has started. -/
def jsSplitWsGo : List Char → Option (List Char) → List String
  | [], some cur => [(cur.reverse).asString]
  | [], none => [""]
  | c :: cs, some cur =>
    if c.isWhitespace then (cur.reverse).asString :: jsSplitWsGo cs none
    else jsSplitWsGo cs (some (c :: cur))
  | c :: cs, none =>
    if c.isWhitespace then jsSplitWsGo cs none
    else jsSplitWsGo cs (some [c])

/-- JavaScript String.split on the regular expression of one-or-more
whitespace characters: separators are maximal whitespace runs, and a leading
or trailing run contributes an empty piece (so " a " splits into
["", "a", ""], and "" splits into [""]). -/
def jsSplitWs (s : String) : List String :=
  jsSplitWsGo s.data (some [])

/-- Whitespace-token list used for itemtype/itemprop attributes:
trim, split on whitespace runs, drop empty pieces (the source's
.trim().split(whitespace).filter(Boolean)). -/
def wsTokens (s : String) : List String :=
  (jsSplitWs (jsTrim s)).filter (fun t => t ≠ "")

/-- Numeric value of a hexadecimal digit character (0 for other input). -/
def hexDigitVal (c : Char) : ℕ :=
  if c.isDigit then c.toNat - 48
  else if 'a' ≤ c ∧ c ≤ 'f' then c.toNat - 87
  else if 'A' ≤ c ∧ c ≤ 'F' then c.toNat - 55
  else 0

/-- Character class [0-9a-fA-F] of the entity regular expression. -/
def isHexClass (c : Char) : Bool :=
  c.isDigit || ('a' ≤ c ∧ c ≤ 'f') || ('A' ≤ c ∧ c ≤ 'F')

/-- Value of a digit string in the given base (digits assumed in range). -/
def digitsVal (base : ℕ) (cs : List Char) : ℕ :=
  cs.foldl (fun a c => a * base + hexDigitVal c) 0

/-- JavaScript parseInt(s, 10) on a string of [0-9a-fA-F] characters:
parses the longest decimal-digit prefix, NaN (none) when it is empty. -/
def parseIntDec (cs : List Char) : Option ℕ :=
  let ds := cs.takeWhile Char.isDigit
  if ds = [] then none else some (digitsVal 10 ds)

/-- Decimal part of JavaScript Number(string): optional sign, digits with an
optional fraction, optional exponent.  none models NaN. -/
def jsDecimal (cs : List Char) : Option ℚ :=
  let sgnRest : ℚ × List Char :=
    match cs with
    | '-' :: r => (-1, r)
    | '+' :: r => (1, r)
    | r => (1, r)
  let sgn := sgnRest.1
  let cs := sgnRest.2
  let ip := cs.takeWhile Char.isDigit
  let r1 := cs.drop ip.length
  let hasDot : Bool := r1.headD ' ' = '.'
  let fp := if hasDot then (r1.drop 1).takeWhile Char.isDigit else []
  let r2 := if hasDot then (r1.drop 1).drop fp.length else r1
  if ip = [] ∧ fp = [] then none
  else
    let base : ℚ := (digitsVal 10 ip : ℚ) + (digitsVal 10 fp : ℚ) / (10 : ℚ) ^ fp.length
    match r2 with
    | [] => some (sgn * base)
    | e :: r3 =>
      if e = 'e' ∨ e = 'E' then
        let esgnRest : ℤ × List Char :=
          match r3 with
          | '-' :: r => (-1, r)
          | '+' :: r => (1, r)
          | r => (1, r)
        let ed := esgnRest.2.takeWhile Char.isDigit
        if ed ≠ [] ∧ esgnRest.2.drop ed.length = [] then
          some (sgn * base * (10 : ℚ) ^ (esgnRest.1 * (digitsVal 10 ed : ℤ)))
        else none
      else none

/-- JavaScript Number(string) conversion for the forms the extractor can
meet: trimming, "" = 0, unsigned 0x/0o/0b radix literals, and signed decimal
literals with optional fraction and exponent.  none models NaN; the
non-finite spellings ("Infinity") are outside this development's scope and
also map to none. -/
def jsNumber (s : String) : Option ℚ :=
  let t := jsTrim s
  if t = "" then some 0
  else
    match t.data with
    | '0' :: 'x' :: r => if r ≠ [] ∧ r.all isHexClass then some (digitsVal 16 r : ℚ) else none
    | '0' :: 'X' :: r => if r ≠ [] ∧ r.all isHexClass then some (digitsVal 16 r : ℚ) else none
    | '0' :: 'o' :: r =>
      if r ≠ [] ∧ r.all (fun c => '0' ≤ c ∧ c ≤ '7') then some (digitsVal 8 r : ℚ) else none
    | '0' :: 'O' :: r =>
      if r ≠ [] ∧ r.all (fun c => '0' ≤ c ∧ c ≤ '7') then some (digitsVal 8 r : ℚ) else none
    | '0' :: 'b' :: r =>
      if r ≠ [] ∧ r.all (fun c => c = '0' ∨ c = '1') then some (digitsVal 2 r : ℚ) else none
    | '0' :: 'B' :: r =>
      if r ≠ [] ∧ r.all (fun c => c = '0' ∨ c = '1') then some (digitsVal 2 r : ℚ) else none
    | cs => jsDecimal cs

/-- Does pat occur as a prefix of s?  If so return the remainder. -/
def stripPfx? (pat : List Char) : List Char → Option (List Char)
  | s =>
    match pat, s with
    | [], rest => some rest
    | _ :: _, [] => none
    | p :: ps, c :: cs => if p = c then stripPfx? ps cs else none

/-- JavaScript String.replace with a global literal pattern: leftmost,
non-overlapping, scanning resumes after each replacement.  Fuelled by the
input length (each step consumes at least one character when the pattern is
non-empty, as all uses here are). -/
def replaceAllFuel (pat repl : List Char) : ℕ → List Char → List Char
  | 0, s => s
  | _, [] => []
  | fuel + 1, c :: cs =>
    match stripPfx? pat (c :: cs) with
    | some rest => repl ++ replaceAllFuel pat repl fuel rest
    | none => c :: replaceAllFuel pat repl fuel cs

/-- JavaScript s.replace(pat-as-global-literal, repl). -/
def replaceAll (pat repl s : String) : String :=
  (replaceAllFuel pat.data repl.data s.data.length s.data).asString

/-- Attempt to match the tail of a numeric character reference
(x?)([0-9a-fA-F]+); immediately after "&#".  On a syntactic match returns
the code point (none inside = parseInt gave NaN, i.e. a RangeError is due)
and the characters after the semicolon. -/
def numericRefAt (rest : List Char) : Option (Option ℕ × List Char) :=
  let hexBody : Bool × List Char :=
    match rest with
    | 'x' :: r => (true, r)
    | r => (false, r)
  let isHex := hexBody.1
  let body := hexBody.2
  let run := body.takeWhile isHexClass
  match body.drop run.length with
  | ';' :: tail =>
    if run = [] then none
    else if isHex then some (some (digitsVal 16 run), tail)
    else some (parseIntDec run, tail)
  | _ => none

/-- The numeric character-reference pass of decodeHtmlEntities.  none models
the RangeError String.fromCodePoint raises on NaN or an out-of-range code
point.  Lean characters exclude surrogate code points, which Char.ofNat maps
to a default; no input in this development reaches them.  Fuelled by the
input length (every step consumes at least one character). -/
def decodeNumericRefsFuel : ℕ → List Char → Option (List Char)
  | 0, s => some s
  | _, [] => some []
  | fuel + 1, '&' :: '#' :: rest =>
    match numericRefAt rest with
    | some (some n, tail) =>
      if n ≤ 1114111 then (decodeNumericRefsFuel fuel tail).map (fun cs => Char.ofNat n :: cs)
      else none
    | some (none, _) => none
    | none => (decodeNumericRefsFuel fuel ('#' :: rest)).map (fun cs => '&' :: cs)
  | fuel + 1, c :: cs => (decodeNumericRefsFuel fuel cs).map (fun l => c :: l)

/-- decodeHtmlEntities from src/webpage-meta-extractor.js: six sequential
named-entity replacements (the two apostrophe patterns of one alternation
pass cannot create each other, so two sequential passes are equivalent),
then the numeric character-reference pass, which can raise (none). -/
def decodeHtmlEntities (value : String) : Option String :=
  if value = "" then some value
  else
    let s1 := replaceAll "&amp;" "&" value
    let s2 := replaceAll "&lt;" "<" s1
    let s3 := replaceAll "&gt;" ">" s2
    let s4 := replaceAll "&quot;" "\"" s3
    let s5 := replaceAll "&#39;" "'" s4
    let s6 := replaceAll "&apos;" "'" s5
    (decodeNumericRefsFuel s6.data.length s6.data).map List.asString

/-! ## DOM model -/

/-- One DOM element: tag name (upper-case, as the DOM exposes it), attribute
list (first entry wins on lookup), child element indices, and its
textContent.  Element identity is the index into the document's element
list, which enumerates elements in document (preorder) order. -/
structure Elem where
  tagName : String
  attrs : List (String × String)
  children : List ℕ
  textContent : String
deriving Repr, DecidableEq

/-- A DOM document: its elements in document order. -/
structure Dom where
  elems : List Elem
deriving Repr, DecidableEq

/-- Element at an index, if any. -/
def Dom.elem? (d : Dom) (i : ℕ) : Option Elem :=
  d.elems.get? i

/-- Element.getAttribute (null for an absent attribute or index). -/
def Dom.getAttr? (d : Dom) (i : ℕ) (a : String) : Option String :=
  (d.elem? i).bind (fun e => e.attrs.lookup a)

/-- Element.hasAttribute. -/
def Dom.hasAttr (d : Dom) (i : ℕ) (a : String) : Bool :=
  (d.getAttr? i a).isSome

/-- Element.children as indices (empty for an invalid index). -/
def Dom.childrenOf (d : Dom) (i : ℕ) : List ℕ :=
  ((d.elem? i).map (fun e => e.children)).getD []

/-- Element.textContent ("" for an invalid index). -/
def Dom.textOf (d : Dom) (i : ℕ) : String :=
  ((d.elem? i).map (fun e => e.textContent)).getD ""

/-- Element.tagName ("" for an invalid index). -/
def Dom.tagOf (d : Dom) (i : ℕ) : String :=
  ((d.elem? i).map (fun e => e.tagName)).getD ""

/-- document.querySelectorAll for a bare tag-name selector: all elements
with that tag name, in document order. -/
def Dom.selectTag (d : Dom) (t : String) : List ℕ :=
  (List.range d.elems.length).filter (fun i => d.tagOf i = t)

/-- querySelectorAll for a tag[attr] selector (attribute present). -/
def Dom.selectTagWithAttr (d : Dom) (t a : String) : List ℕ :=
  (List.range d.elems.length).filter (fun i => d.tagOf i = t ∧ d.hasAttr i a)

/-- querySelectorAll for a tag[attr="v"] selector (attribute exactly v; CSS
attribute-value matching is case-sensitive). -/
def Dom.selectTagAttrEq (d : Dom) (t a v : String) : List ℕ :=
  (List.range d.elems.length).filter (fun i => d.tagOf i = t ∧ d.getAttr? i a = some v)

/-- querySelectorAll("[itemscope]:not([itemprop])"): top-level microdata
item elements. -/
def Dom.topItems (d : Dom) : List ℕ :=
  (List.range d.elems.length).filter
    (fun i => d.hasAttr i "itemscope" ∧ ¬ d.hasAttr i "itemprop")

/-- document.getElementById: the first element carrying the id, null for the
empty string. -/
def Dom.byId? (d : Dom) (idv : String) : Option ℕ :=
  if idv = "" then none
  else ((List.range d.elems.length).filter (fun i => d.getAttr? i "id" = some idv)).head?

/-! ## Value records.

The JavaScript record constructors raise InvalidArgument when the required
url/href is empty; the extraction pass only constructs them from truthy
attribute values, so every record a snapshot holds has a non-empty
identifying field.  Theorems that quantify over hand-built snapshots carry
that constructor invariant as a hypothesis. -/

/-- A JavaScript value that is dynamically either a number or a string
(WebpageImage.width and .height hold numbers in the current source but the
canonical claim speaks of raw strings, so the field type keeps both
representable). -/
inductive NumOrStr where
  | num (q : ℚ)
  | str (s : String)
deriving Repr, DecidableEq

/-- WebpageImage (src/webpage-image.js). -/
structure WebpageImage where
  url : String
  secureUrl : Option String := none
  type : Option String := none
  width : Option NumOrStr := none
  height : Option NumOrStr := none
  alt : Option String := none
deriving Repr, DecidableEq

/-- WebpageVideo (src/webpage-video.js). -/
structure WebpageVideo where
  url : String
  secureUrl : Option String := none
  type : Option String := none
  width : Option NumOrStr := none
  height : Option NumOrStr := none
  alt : Option String := none
deriving Repr, DecidableEq

/-- WebpageFavicon (src/webpage-favicon.js). -/
structure WebpageFavicon where
  href : String
  rel : Option String := none
  type : Option String := none
  sizes : Option String := none
deriving Repr, DecidableEq

/-- WebpageFeed (src/webpage-feed.js). -/
structure WebpageFeed where
  href : String
  title : Option String := none
  type : Option String := none
deriving Repr, DecidableEq

/-- WebpageFavicon.extname: strip everything from the first ? or #, then
match a final dot followed by one or more alphanumeric characters;
lower-cased with the leading dot, undefined when there is no match (or, in
the getter's own guard, when href is empty). -/
def WebpageFavicon.extname (f : WebpageFavicon) : Option String :=
  if f.href = "" then none
  else
    let url := (f.href.data.takeWhile (fun c => c ≠ '?' ∧ c ≠ '#'))
    let rev := url.reverse
    let ext := rev.takeWhile (fun c => c.isAlphanum)
    if ext ≠ [] ∧ (rev.drop ext.length).headD ' ' = '.' then
      some (jsToLower ("." ++ (ext.reverse).asString))
    else none

/-! ## JSON and microdata values -/

/-- Parsed JSON values (the embedded JSON-LD payloads).  JSON parsing itself
is an external collaborator (JSON.parse); the extractor is parameterised by
a parse function String → Option Json that fails-closed. -/
inductive Json where
  | null
  | bool (b : Bool)
  | num (q : ℚ)
  | str (s : String)
  | arr (xs : List Json)
  | obj (fields : List (String × Json))

/-- The JSON-shaped output of extractMicrodataItem: a string value, an array
(only produced by the multi-value collapse), or an item object with its
optional type and id and its property map in insertion order. -/
inductive MicroJson where
  | str (s : String)
  | arr (vs : List MicroJson)
  | item (type? : Option String) (id? : Option String) (props : List (String × MicroJson))

/-- The type field of an item, if this value is an item. -/
def MicroJson.itemType? : MicroJson → Option String
  | .item t _ _ => t
  | _ => none

/-! ## Microdata extraction (extractMicrodataItem) -/

/-- Outcome of running a piece of JavaScript under a fuel budget: the fuel
ran out (modelling non-termination / stack overflow), an exception escaped,
or a value was produced. -/
inductive JsRes (α : Type) where
  | fuelOut
  | thrown
  | ok (a : α)
deriving Repr, DecidableEq

/-- Total number of child slots in the document; an upper bound on how many
elements the property-collection loop can ever enqueue beyond its initial
pending list. -/
def Dom.totalChildren (d : Dom) : ℕ :=
  (d.elems.map (fun e => e.children.length)).sum

/-- The while-loop of the property element set construction: pop a pending
element; skip it if already visited; otherwise mark it visited, enqueue its
children unless it has itemscope, and collect it when it has itemprop.
Fuelled; collectProps supplies a fuel that is provably sufficient
(collectLoop_stable below). -/
def collectLoop (d : Dom) : ℕ → List ℕ → List ℕ → List ℕ → List ℕ
  | 0, _, _, acc => acc.reverse
  | _ + 1, [], _, acc => acc.reverse
  | fuel + 1, current :: rest, visited, acc =>
    if current ∈ visited then collectLoop d fuel rest visited acc
    else
      let pending' := if d.hasAttr current "itemscope" then rest else rest ++ d.childrenOf current
      let acc' := if d.hasAttr current "itemprop" then current :: acc else acc
      collectLoop d fuel pending' (current :: visited) acc'

/-- The property element set of an item, in discovery order: run the loop on
the initial pending list with enough fuel for it to drain (each iteration
consumes one pending entry, and at most totalChildren entries are ever
added to the initial ones). -/
def collectProps (d : Dom) (pending : List ℕ) : List ℕ :=
  collectLoop d (pending.length + d.totalChildren) pending [] []

/-- Insert into an ascending list (used to sort property elements). -/
def insertAsc (x : ℕ) : List ℕ → List ℕ
  | [] => [x]
  | y :: ys => if x ≤ y then x :: y :: ys else y :: insertAsc x ys

/-- propElems.sort with the compareDocumentPosition comparator: since
element indices are document-order positions, this is an ascending sort. -/
def sortDocOrder (l : List ℕ) : List ℕ :=
  l.foldr insertAsc []

/-- The non-item microdata property value of an element, by tag kind.
The meta branch decodes entities and can raise (none). -/
def microPropValue (d : Dom) (i : ℕ) : Option String :=
  let tag := d.tagOf i
  let attrD (a : String) : String := (d.getAttr? i a).getD ""
  if tag = "META" then decodeHtmlEntities (attrD "content")
  else if tag = "A" ∨ tag = "AREA" ∨ tag = "LINK" then some (attrD "href")
  else if tag = "AUDIO" ∨ tag = "EMBED" ∨ tag = "IFRAME" ∨ tag = "IMG" ∨
      tag = "SOURCE" ∨ tag = "TRACK" ∨ tag = "VIDEO" then some (attrD "src")
  else if tag = "OBJECT" then some (attrD "data")
  else if tag = "DATA" then some (attrD "value")
  else if tag = "METER" then some (attrD "value")
  else if tag = "TIME" then
    some (if attrD "datetime" ≠ "" then attrD "datetime" else d.textOf i)
  else some (d.textOf i)

/-- properties[name].push(value), creating the key slot on first use
(JavaScript object insertion order). -/
def pushProp (props : List (String × List MicroJson)) (k : String) (v : MicroJson) :
    List (String × List MicroJson) :=
  if (props.lookup k).isSome then
    props.map (fun p => if p.1 = k then (p.1, p.2 ++ [v]) else p)
  else props ++ [(k, [v])]

/-- Push one value under every itemprop token of an element. -/
def pushPropAll (props : List (String × List MicroJson)) (names : List String) (v : MicroJson) :
    List (String × List MicroJson) :=
  names.foldl (fun ps n => pushProp ps n v) props

/-- The per-property-element loop of extractMicrodataItem, parameterised by
the recursive item extractor so the whole recursion is structural in fuel.
A nested item whose recursive extraction returns undefined (ok none) is
skipped; fuel exhaustion and exceptions propagate. -/
def propsFold (d : Dom) (valueOf : ℕ → JsRes (Option MicroJson)) :
    List ℕ → List (String × List MicroJson) → JsRes (List (String × List MicroJson))
  | [], props => .ok props
  | e :: es, props =>
    let names := wsTokens ((d.getAttr? e "itemprop").getD "")
    if d.hasAttr e "itemscope" then
      match valueOf e with
      | .fuelOut => .fuelOut
      | .thrown => .thrown
      | .ok none => propsFold d valueOf es props
      | .ok (some it) => propsFold d valueOf es (pushPropAll props names it)
    else
      match microPropValue d e with
      | none => .thrown
      | some s => propsFold d valueOf es (pushPropAll props names (.str s))

/-- values.length === 1 collapses a property list to its bare value. -/
def collapseVals (vs : List MicroJson) : MicroJson :=
  match vs with
  | [v] => v
  | _ => .arr vs

/-- extractMicrodataItem (src/webpage-meta-extractor.js).  Faithfully to the
source, the call on a nested item passes the incoming memory set, not the
extended nextMemory (which the source computes but never uses), so the
memory guard can only fire for elements placed in memory by a caller —
which never happens — and cyclic itemprop items recurse until the fuel
(the stack) runs out. -/
def extractMicrodataItem (d : Dom) : ℕ → ℕ → List ℕ → JsRes (Option MicroJson)
  | 0, _, _ => .fuelOut
  | fuel + 1, itemElem, memory =>
    if itemElem ∈ memory then .ok none
    else
      let type? : Option String :=
        if truthy (d.getAttr? itemElem "itemtype") then
          match wsTokens ((d.getAttr? itemElem "itemtype").getD "") with
          | t :: _ => some t
          | [] => none
        else none
      let id? : Option String :=
        if truthy (d.getAttr? itemElem "itemid") then
          some (jsTrim ((d.getAttr? itemElem "itemid").getD ""))
        else none
      let refs : List ℕ :=
        if truthy (d.getAttr? itemElem "itemref") then
          (jsSplitWs (jsTrim ((d.getAttr? itemElem "itemref").getD ""))).filterMap d.byId?
        else []
      let pending := d.childrenOf itemElem ++ refs
      let propElems := sortDocOrder (collectProps d pending)
      match propsFold d (fun e => extractMicrodataItem d fuel e memory) propElems [] with
      | .fuelOut => .fuelOut
      | .thrown => .thrown
      | .ok props => .ok (some (.item type? id? (props.map (fun p => (p.1, collapseVals p.2)))))

/-! ## The snapshot (WebpageMeta) and the extraction pass -/

/-- WebpageMeta (src/webpage-meta.js): the snapshot one extract call
returns.  The two Maps are insertion-ordered association lists. -/
structure WebpageMeta where
  meta : List (String × List String) := []
  other : List (String × String) := []
  feeds : List WebpageFeed := []
  images : List WebpageImage := []
  jsonld : List Json := []
  favicons : List WebpageFavicon := []
  videos : List WebpageVideo := []
  canonicalUrl : Option String := none
  microdata : List MicroJson := []

/-- addToMap (src/webpage-meta-extractor.js): push a value onto the key's
list, creating the list on first use; Map iteration order is first-insertion
order, so a later push never moves a key. -/
def addToMap (m : List (String × List String)) (k v : String) :
    List (String × List String) :=
  if (m.lookup k).isSome then
    m.map (fun p => if p.1 = k then (p.1, p.2 ++ [v]) else p)
  else m ++ [(k, [v])]

/-- other.set(k, v) guarded by !other.has(k): first write wins. -/
def otherSetFirst (m : List (String × String)) (k v : String) : List (String × String) :=
  if (m.lookup k).isSome then m else m ++ [(k, v)]

/-- Unguarded Map.set(k, v): overwrite in place or append. -/
def mapSet (m : List (String × String)) (k v : String) : List (String × String) :=
  if (m.lookup k).isSome then m.map (fun p => if p.1 = k then (p.1, v) else p)
  else m ++ [(k, v)]

/-- State accumulated by the link[rel] loop. -/
structure LinkState where
  favicons : List WebpageFavicon := []
  other : List (String × String) := []
deriving Repr, DecidableEq

/-- One iteration of the link[rel] loop: rel is trimmed and lower-cased,
skips without a truthy href or rel, icon/shortcut-icon tags produce a
favicon record, and the first icon and first shortcut-icon hrefs populate
the other map. -/
def linkStep (d : Dom) (st : LinkState) (i : ℕ) : LinkState :=
  let rel := jsToLower (jsTrim ((d.getAttr? i "rel").getD ""))
  let href? := d.getAttr? i "href"
  let type? := orUndef (d.getAttr? i "type")
  let sizes? := orUndef (d.getAttr? i "sizes")
  if ¬ truthy href? ∨ rel = "" then st
  else
    let href := href?.getD ""
    let st :=
      if rel = "icon" ∨ rel = "shortcut icon" then
        { st with favicons := st.favicons ++ [⟨href, some rel, type?, sizes?⟩] }
      else st
    let st :=
      if rel = "icon" then { st with other := otherSetFirst st.other "icon" href } else st
    if rel = "shortcut icon" then
      { st with other := otherSetFirst st.other "shortcut icon" href }
    else st

/-- The link[rel] pass. -/
def linkPass (d : Dom) : LinkState :=
  (d.selectTagWithAttr "LINK" "rel").foldl (linkStep d) {}

/-- State accumulated by the meta-tag loop. -/
structure MetaState where
  meta : List (String × List String) := []
  images : List WebpageImage := []
  videos : List WebpageVideo := []
deriving Repr, DecidableEq

/-- Assign one og:image:* / og:video:* structured sub-property on a record
(width/height via Number coercion; NaN leaves the field undefined). -/
def setImageSub (img : WebpageImage) (subKey content : String) : WebpageImage :=
  if subKey = "secure_url" then { img with secureUrl := some content }
  else if subKey = "type" then { img with type := some content }
  else if subKey = "width" then { img with width := (jsNumber content).map NumOrStr.num }
  else if subKey = "height" then { img with height := (jsNumber content).map NumOrStr.num }
  else if subKey = "alt" then { img with alt := some content }
  else img

/-- Same assignment for videos. -/
def setVideoSub (vid : WebpageVideo) (subKey content : String) : WebpageVideo :=
  if subKey = "secure_url" then { vid with secureUrl := some content }
  else if subKey = "type" then { vid with type := some content }
  else if subKey = "width" then { vid with width := (jsNumber content).map NumOrStr.num }
  else if subKey = "height" then { vid with height := (jsNumber content).map NumOrStr.num }
  else if subKey = "alt" then { vid with alt := some content }
  else vid

/-- Replace the last entry of a list by its image under f. -/
def updateLast {α : Type} (f : α → α) : List α → List α
  | [] => []
  | [x] => [f x]
  | x :: y :: ys => x :: updateLast f (y :: ys)

/-- One iteration of the meta-tag loop: skip without truthy content, decode
entities (which can raise), run the Open Graph image/video handling when the
property attribute starts with "og:", then record the decoded content under
the property and/or name keys.  none propagates the decoder's exception. -/
def metaStep (d : Dom) (st : MetaState) (i : ℕ) : Option MetaState :=
  let property? := d.getAttr? i "property"
  let name? := d.getAttr? i "name"
  let contentRaw? := d.getAttr? i "content"
  if ¬ truthy contentRaw? then some st
  else
    match decodeHtmlEntities (contentRaw?.getD "") with
    | none => none
    | some content =>
      let property := property?.getD ""
      let st :=
        if truthy property? ∧ jsStartsWith property "og:" then
          let images :=
            if property = "og:image" ∨ property = "og:image:url" then
              st.images ++ [{ url := content }]
            else if jsStartsWith property "og:image:" ∧ st.images ≠ [] then
              updateLast (fun img => setImageSub img (jsSlice property "og:image:".data.length) content)
                st.images
            else st.images
          let videos :=
            if property = "og:video" ∨ property = "og:video:url" then
              st.videos ++ [{ url := content }]
            else if jsStartsWith property "og:video:" ∧ st.videos ≠ [] then
              updateLast (fun vid => setVideoSub vid (jsSlice property "og:video:".data.length) content)
                st.videos
            else st.videos
          { st with images := images, videos := videos }
        else st
      let meta := if truthy property? then addToMap st.meta property content else st.meta
      let meta := if truthy name? then addToMap meta (name?.getD "") content else meta
      some { st with meta := meta }

/-- The meta-tag pass; none when a decode raised. -/
def metaPass (d : Dom) : List ℕ → MetaState → Option MetaState
  | [], st => some st
  | i :: is, st =>
    match metaStep d st i with
    | none => none
    | some st' => metaPass d is st'

/-- The canonical-URL step: the first link[rel="canonical"] element, its
href when truthy. -/
def canonicalStep (d : Dom) : Option String :=
  match (d.selectTagAttrEq "LINK" "rel" "canonical").head? with
  | none => none
  | some i =>
    match d.getAttr? i "href" with
    | some h => if h ≠ "" then some h else none
    | none => none

/-- The title/first-heading step: first title and first h1 text contents,
when truthy, written into the other map. -/
def titlePass (d : Dom) (other : List (String × String)) : List (String × String) :=
  let other :=
    match (d.selectTag "TITLE").head? with
    | some i => if d.textOf i ≠ "" then mapSet other "title" (d.textOf i) else other
    | none => other
  match (d.selectTag "H1").head? with
  | some i => if d.textOf i ≠ "" then mapSet other "firstHeading" (d.textOf i) else other
  | none => other

/-- The feed MIME-type allow-list. -/
def ALLOWED_FEED_TYPES : List String :=
  ["application/rss+xml", "application/atom+xml", "application/feed+json", "application/json"]

/-- One iteration of the link[rel="alternate"] loop. -/
def feedStep (d : Dom) (acc : List WebpageFeed) (i : ℕ) : List WebpageFeed :=
  let href? := d.getAttr? i "href"
  if ¬ truthy href? then acc
  else
    let title? := orUndef (d.getAttr? i "title")
    let type? := orUndef (d.getAttr? i "type")
    match type? with
    | some ty => if ty ∈ ALLOWED_FEED_TYPES then acc ++ [⟨href?.getD "", title?, some ty⟩] else acc
    | none => acc

/-- The feeds pass. -/
def feedPass (d : Dom) : List WebpageFeed :=
  (d.selectTagAttrEq "LINK" "rel" "alternate").foldl (feedStep d) []

/-- The JSON-LD loop: parse each script's text; push a parsed array's
elements individually, any other parsed value as-is; parse failure is
caught and skipped. -/
def jsonldLoop (parse : String → Option Json) : List String → List Json → List Json
  | [], acc => acc
  | txt :: rest, acc =>
    match parse txt with
    | some (Json.arr items) => jsonldLoop parse rest (acc ++ items)
    | some j => jsonldLoop parse rest (acc ++ [j])
    | none => jsonldLoop parse rest acc

/-- Text contents of the JSON-LD script tags, in document order. -/
def ldScriptTexts (d : Dom) : List String :=
  (d.selectTagAttrEq "SCRIPT" "type" "application/ld+json").map d.textOf

/-- The microdata pass: run extractMicrodataItem on each top-level item with
a fresh empty memory, appending defined results; fuel exhaustion and
exceptions propagate. -/
def microdataPass (d : Dom) (fuel : ℕ) : List ℕ → List MicroJson → JsRes (List MicroJson)
  | [], acc => .ok acc
  | i :: is, acc =>
    match extractMicrodataItem d fuel i [] with
    | .fuelOut => .fuelOut
    | .thrown => .thrown
    | .ok none => microdataPass d fuel is acc
    | .ok (some it) => microdataPass d fuel is (acc ++ [it])

/-- The argument of extract, as the JavaScript sees it: null/undefined, an
object without a querySelectorAll function, or a document. -/
inductive DocInput where
  | nullish
  | notDoc
  | dom (d : Dom)

/-- What one call of extract does: raise the input-validation TypeError,
let some other exception escape, fail to terminate within the fuel, or
return a snapshot. -/
inductive ExtractOutcome where
  | typeError (msg : String)
  | thrown
  | fuelOut
  | ok (m : WebpageMeta)

/-- WebpageMetaExtractor.extract: input validation, then the link, meta,
canonical, title, feed, JSON-LD and microdata passes over the document, in
source order, assembling the snapshot.  parse is the external JSON.parse
collaborator; fuel bounds the microdata recursion depth. -/
def extract (input : DocInput) (parse : String → Option Json) (fuel : ℕ) : ExtractOutcome :=
  match input with
  | .nullish => .typeError "Expected a DOM Document with querySelectorAll."
  | .notDoc => .typeError "Expected a DOM Document with querySelectorAll."
  | .dom d =>
    let links := linkPass d
    match metaPass d (d.selectTag "META") {} with
    | none => .thrown
    | some ms =>
      let canonicalUrl := canonicalStep d
      let other := titlePass d links.other
      let feeds := feedPass d
      let jsonld := jsonldLoop parse (ldScriptTexts d) []
      match microdataPass d fuel (d.topItems) [] with
      | .fuelOut => .fuelOut
      | .thrown => .thrown
      | .ok micro =>
        .ok { meta := ms.meta, other := other, feeds := feeds, images := ms.images,
              jsonld := jsonld, favicons := links.favicons, videos := ms.videos,
              canonicalUrl := canonicalUrl, microdata := micro }

/-! ## Derived accessors -/

/-- First Favicon test of the favicon getter: SVG by type or extension. -/
def isSvgIcon (f : WebpageFavicon) : Bool :=
  f.type = some "image/svg+xml" || f.extname = some ".svg"

/-- PNG candidate test of the favicon getter. -/
def isPngIcon (f : WebpageFavicon) : Bool :=
  f.type = some "image/png" || f.extname = some ".png"

/-- ICO test as the source writes it, including its trailing truthy-href
conjunct. -/
def isIcoIcon (f : WebpageFavicon) : Bool :=
  (f.type = some "image/x-icon" ||
    ((f.rel = some "icon" || f.rel = some "shortcut icon") && f.extname = some ".ico")) &&
    f.href ≠ ""

/-- ICO test as the claim words it (no href conjunct). -/
def isIcoIconClaim (f : WebpageFavicon) : Bool :=
  f.type = some "image/x-icon" ||
    ((f.rel = some "icon" || f.rel = some "shortcut icon") && f.extname = some ".ico")

/-- Area declared by one WxH token of a sizes attribute: Number of the part
before the first x and of the part after it (undefined gives NaN), their
product when both are numbers. -/
def sizeTokenArea (tok : String) : Option ℚ :=
  let parts := jsSplitOnChar 'x' tok
  match jsNumber (parts.headD ""), (parts.get? 1).bind jsNumber with
  | some w, some h => some (w * h)
  | _, _ => none

/-- All areas a favicon's sizes attribute declares, token by token. -/
def faviconAreas (f : WebpageFavicon) : List ℚ :=
  if truthy f.sizes then (jsSplitWs (f.sizes.getD "")).filterMap sizeTokenArea else []

/-- The source's largest-PNG scan: run over every PNG candidate and every
declared area, keeping the first candidate whose area strictly exceeds the
running best, which starts at 0. -/
def pickLargestPng (pngs : List WebpageFavicon) : Option WebpageFavicon × ℚ :=
  pngs.foldl
    (fun acc f =>
      (faviconAreas f).foldl (fun a2 area => if a2.2 < area then (some f, area) else a2) acc)
    (none, 0)

/-- All (candidate, declared area) pairs of a PNG candidate list, candidate
by candidate and token by token. -/
def pngAreaPairs (pngs : List WebpageFavicon) : List (WebpageFavicon × ℚ) :=
  pngs.flatMap (fun f => (faviconAreas f).map (fun a => (f, a)))

/-- PNG selection as the claim states it: among all candidates and all their
parsed size tokens, the one with the largest declared area (the first
attaining it), falling back to the first PNG when no candidate declares any
parseable size. -/
def pngByClaimStated (pngs : List WebpageFavicon) : Option WebpageFavicon :=
  let pairs := pngAreaPairs pngs
  match (pairs.map Prod.snd).max? with
  | some mx => (pairs.find? (fun p => decide (p.2 = mx))).map Prod.fst
  | none => pngs.head?

/-- PNG selection as amended: only a positive declared area counts; when no
candidate declares a positive area the first PNG wins. -/
def pngByClaimAmended (pngs : List WebpageFavicon) : Option WebpageFavicon :=
  let pairs := pngAreaPairs pngs
  let mx := pairs.foldl (fun b p => max b p.2) (0 : ℚ)
  if 0 < mx then (pairs.find? (fun p => decide (p.2 = mx))).map Prod.fst
  else pngs.head?

/-- The favicon selection order of the claim, parameterised by the PNG rule:
first SVG, then the PNG rule over the PNG candidates, then first ICO, then
other["icon"], then other["shortcut icon"], then "/favicon.ico". -/
def faviconSelect (pick : List WebpageFavicon → Option WebpageFavicon) (m : WebpageMeta) :
    String :=
  match m.favicons.find? isSvgIcon with
  | some svg => svg.href
  | none =>
    let pngs := m.favicons.filter isPngIcon
    match pick pngs with
    | some p => p.href
    | none =>
      match m.favicons.find? isIcoIconClaim with
      | some ico => ico.href
      | none =>
        match m.other.lookup "icon" with
        | some icon => icon
        | none =>
          match m.other.lookup "shortcut icon" with
          | some sc => sc
          | none => "/favicon.ico"

/-- The favicon selection exactly as the claim states it. -/
def faviconClaimStated (m : WebpageMeta) : String :=
  faviconSelect pngByClaimStated m

/-- The favicon selection as amended (positive areas only). -/
def faviconClaimAmended (m : WebpageMeta) : String :=
  faviconSelect pngByClaimAmended m

/-- The favicon getter of src/webpage-meta.js. -/
def WebpageMeta.favicon (m : WebpageMeta) : String :=
  match m.favicons.find? isSvgIcon with
  | some svg => svg.href
  | none =>
    let pngs := m.favicons.filter isPngIcon
    match (pickLargestPng pngs).1 with
    | some p => p.href
    | none =>
      match pngs with
      | p :: _ => p.href
      | [] =>
        match m.favicons.find? isIcoIcon with
        | some ico => ico.href
        | none =>
          let icon? := m.other.lookup "icon"
          if truthy icon? then icon?.getD ""
          else
            let sc? := m.other.lookup "shortcut icon"
            if truthy sc? then sc?.getD "" else "/favicon.ico"

/-- A projected value of openGraphObject: a bare string when the property
had exactly one value, an array otherwise. -/
inductive MetaVal where
  | one (s : String)
  | many (vs : List String)
deriving Repr, DecidableEq

/-- values.length === 1 ? values[0] : values. -/
def MetaVal.ofList (vs : List String) : MetaVal :=
  match vs with
  | [v] => .one v
  | _ => .many vs

/-- JavaScript object assignment result[k] = v: overwrite in place or append
(string keys keep insertion order). -/
def objSet (m : List (String × MetaVal)) (k : String) (v : MetaVal) :
    List (String × MetaVal) :=
  if (m.lookup k).isSome then m.map (fun p => if p.1 = k then (p.1, v) else p)
  else m ++ [(k, v)]

/-- Truncate an og:type value at its first dot, as the getter does. -/
def ogTruncType (t : String) : String :=
  match t.data.findIdx? (fun c => c = '.') with
  | some i => (t.data.take i).asString
  | none => t

/-- The openGraphObject getter of src/webpage-meta.js. -/
def WebpageMeta.openGraphObject (m : WebpageMeta) : List (String × MetaVal) :=
  match m.meta.lookup "og:type" with
  | none => []
  | some typeArr =>
    match typeArr with
    | [] => []
    | t0 :: _ =>
      let pfx := ogTruncType t0 ++ ":"
      m.meta.foldl
        (fun acc p =>
          if jsStartsWith p.1 pfx then
            let prop := jsSlice p.1 pfx.data.length
            if prop ≠ "" then objSet acc prop (MetaVal.ofList p.2) else acc
          else acc)
        []

/-- openGraphObject as the claim states it: scan all meta keys for the
truncated-type prefix, strip it, collapse by multiplicity. -/
def openGraphObjectClaimStated (m : WebpageMeta) : List (String × MetaVal) :=
  match m.meta.lookup "og:type" with
  | none => []
  | some typeArr =>
    match typeArr with
    | [] => []
    | t0 :: _ =>
      let pfx := ogTruncType t0 ++ ":"
      (m.meta.filter (fun p => jsStartsWith p.1 pfx)).map
        (fun p => (jsSlice p.1 pfx.data.length, MetaVal.ofList p.2))

/-- openGraphObject as amended: a key equal to the bare prefix (empty
projected name) is skipped. -/
def openGraphObjectClaimAmended (m : WebpageMeta) : List (String × MetaVal) :=
  match m.meta.lookup "og:type" with
  | none => []
  | some typeArr =>
    match typeArr with
    | [] => []
    | t0 :: _ =>
      let pfx := ogTruncType t0 ++ ":"
      (m.meta.filter (fun p => jsStartsWith p.1 pfx ∧ jsSlice p.1 pfx.data.length ≠ "")).map
        (fun p => (jsSlice p.1 pfx.data.length, MetaVal.ofList p.2))

/-- First value stored under a meta key, when the key holds a non-empty
list. -/
def metaFirst (m : WebpageMeta) (k : String) : Option String :=
  match m.meta.lookup k with
  | some (v :: _) => some v
  | _ => none

/-- The image getter of src/webpage-meta.js: og:image, then twitter:image,
then image. -/
def WebpageMeta.image (m : WebpageMeta) : Option String :=
  match metaFirst m "og:image" with
  | some v => some v
  | none =>
    match metaFirst m "twitter:image" with
    | some v => some v
    | none => metaFirst m "image"

/-! ## Claim-side formulations -/

/-- Canonical URL as the claim states it: the href of the first
link[rel="canonical"] that has a non-empty href. -/
def canonicalClaimStated (d : Dom) : Option String :=
  ((d.selectTagAttrEq "LINK" "rel" "canonical").filterMap
    (fun i => orUndef (d.getAttr? i "href"))).head?

/-- Canonical URL as amended: the first link[rel="canonical"] element is
taken, and its href is used only when non-empty; later canonical links are
never consulted. -/
def canonicalClaimAmended (d : Dom) : Option String :=
  (d.selectTagAttrEq "LINK" "rel" "canonical").head?.bind
    (fun i => orUndef (d.getAttr? i "href"))

/-- The jsonld sequence as the claim states it: each script text that
parses contributes its parsed value, or its elements individually when the
parsed value is an array (one level only); a failing script contributes
nothing and later scripts are still processed. -/
def jsonldClaim (parse : String → Option Json) (txts : List String) : List Json :=
  txts.flatMap
    (fun txt =>
      match parse txt with
      | some (Json.arr xs) => xs
      | some j => [j]
      | none => [])

/-- The value sequence stored under a key of the meta map ([] when the key
is absent). -/
def getList (m : List (String × List String)) (k : String) : List String :=
  (m.lookup k).getD []

/-- The values one meta tag contributes to key k, as the claim states it:
nothing without a truthy content; otherwise the decoded content once for a
matching property attribute and once for a matching name attribute
(independent and additive, in that order). -/
def metaContrib (d : Dom) (i : ℕ) (k : String) : List String :=
  if truthy (d.getAttr? i "content") then
    match decodeHtmlEntities ((d.getAttr? i "content").getD "") with
    | none => []
    | some c =>
      (if d.getAttr? i "property" = some k ∧ k ≠ "" then [c] else []) ++
        (if d.getAttr? i "name" = some k ∧ k ≠ "" then [c] else [])
  else []

/-- images of an ok outcome. -/
def ExtractOutcome.imagesOf : ExtractOutcome → Option (List WebpageImage)
  | .ok m => some m.images
  | _ => none

/-- canonicalUrl of an ok outcome. -/
def ExtractOutcome.canonicalOf : ExtractOutcome → Option (Option String)
  | .ok m => some m.canonicalUrl
  | _ => none

/-- The microdata item types of an ok outcome. -/
def ExtractOutcome.microTypesOf : ExtractOutcome → Option (List (Option String))
  | .ok m => some (m.microdata.map MicroJson.itemType?)
  | _ => none

/-! ## Concrete documents and snapshots used by the claims -/

/-- A meta element carrying optional property/name/content attributes. -/
def metaTagElem (property name content : Option String) : Elem :=
  { tagName := "META",
    attrs :=
      (match property with | some p => [("property", p)] | none => []) ++
        (match name with | some n => [("name", n)] | none => []) ++
        (match content with | some c => [("content", c)] | none => []),
    children := [], textContent := "" }

/-- A top-level itemscope div whose only child is an itemscope element that
carries itemprop and refers to itself through itemref: the smallest cyclic
microdata document. -/
def cyclicItemDoc : Dom :=
  ⟨[{ tagName := "DIV", attrs := [("itemscope", "")], children := [1], textContent := "" },
    { tagName := "DIV",
      attrs := [("itemscope", ""), ("itemprop", "p"), ("id", "x"), ("itemref", "x")],
      children := [], textContent := "" }]⟩

/-- The round-trip image document of the claim: og:image a.jpg, then
og:image:width 600, then og:image b.jpg. -/
def imageRoundTripDoc : Dom :=
  ⟨[metaTagElem (some "og:image") none (some "a.jpg"),
    metaTagElem (some "og:image:width") none (some "600"),
    metaTagElem (some "og:image") none (some "b.jpg")]⟩

/-- A top-level item with a two-token itemtype and one property element. -/
def twoTypeItemDoc : Dom :=
  ⟨[{ tagName := "DIV",
      attrs := [("itemscope", ""),
        ("itemtype", "http://schema.org/Person http://schema.org/Thing")],
      children := [1], textContent := "" },
    { tagName := "SPAN", attrs := [("itemprop", "name")], children := [], textContent := "Alice" }]⟩

/-- A document whose only meta tag carries the content "&#f;", whose
numeric-reference decode calls String.fromCodePoint(parseInt("f", 10)) =
String.fromCodePoint(NaN), raising a RangeError. -/
def badEntityDoc : Dom :=
  ⟨[metaTagElem (some "og:title") none (some "&#f;")]⟩

/-- Two canonical links: the first with an empty href, the second with a
non-empty one. -/
def twoCanonicalDoc : Dom :=
  ⟨[{ tagName := "LINK", attrs := [("rel", "canonical"), ("href", "")],
      children := [], textContent := "" },
    { tagName := "LINK", attrs := [("rel", "canonical"), ("href", "https://b.example/")],
      children := [], textContent := "" }]⟩

/-- Meta tags for the additive-recording witness: one tag with only a
property, one with only a name on the same key but different content, and
one carrying both property and name on a second key. -/
def additiveMetaDoc : Dom :=
  ⟨[metaTagElem (some "og:X") none (some "C"),
    metaTagElem none (some "og:X") (some "D"),
    metaTagElem (some "og:Y") (some "og:Y") (some "E")]⟩

/-- A meta tag giving og:image only through the name attribute. -/
def nameOnlyImageDoc : Dom :=
  ⟨[metaTagElem none (some "og:image") (some "u")]⟩

/-- Three JSON-LD scripts: an unparsable one, a two-element array, and a
plain object. -/
def jsonldDoc : Dom :=
  ⟨[{ tagName := "SCRIPT", attrs := [("type", "application/ld+json")],
      children := [], textContent := "bad json" },
    { tagName := "SCRIPT", attrs := [("type", "application/ld+json")],
      children := [], textContent := "[1,2]" },
    { tagName := "SCRIPT", attrs := [("type", "application/ld+json")],
      children := [], textContent := "{}" }]⟩

/-- A concrete stand-in for JSON.parse covering the three script texts of
jsonldDoc. -/
def jsonldDocParse : String → Option Json := fun s =>
  if s = "[1,2]" then some (.arr [.num 1, .num 2])
  else if s = "{}" then some (.obj [])
  else none

/-- SVG favicon candidate of the selection scenario. -/
def favSvg : WebpageFavicon := ⟨"/favicon.svg", some "icon", some "image/svg+xml", none⟩

/-- 16x16 PNG favicon candidate. -/
def favPng16 : WebpageFavicon := ⟨"/favicon-16.png", some "icon", some "image/png", some "16x16"⟩

/-- 64x64 PNG favicon candidate. -/
def favPng64 : WebpageFavicon := ⟨"/favicon-64.png", some "icon", some "image/png", some "64x64"⟩

/-- ICO favicon candidate. -/
def favIco : WebpageFavicon := ⟨"/favicon.ico", some "shortcut icon", none, none⟩

/-- Snapshot with SVG + 16x16 PNG + 64x64 PNG + ICO candidates. -/
def faviconSnapA : WebpageMeta := { favicons := [favSvg, favPng16, favPng64, favIco] }

/-- The same snapshot with the SVG removed. -/
def faviconSnapB : WebpageMeta := { favicons := [favPng16, favPng64, favIco] }

/-- Snapshot whose PNGs are one with no sizes and one declaring "0x0": the
only declared (parseable) area is zero. -/
def faviconSnapZero : WebpageMeta :=
  { favicons := [⟨"/a.png", some "icon", some "image/png", none⟩,
      ⟨"/b.png", some "icon", some "image/png", some "0x0"⟩] }

/-- Snapshot for the openGraphObject claims: og:type article, article:tag
twice, article:author once, and the bare-prefixed key "article:". -/
def ogObjectSnap : WebpageMeta :=
  { meta := [("og:type", ["article"]), ("article:tag", ["t1", "t2"]),
      ("article:author", ["a"]), ("article:", ["weird"])] }

/-! # Theorems

First the supporting lemmas, then the claim theorems, claim by claim. -/

/-! ## Fuel adequacy for the property-collection loop -/

theorem filtered_sum_insert_le (w : ℕ → ℕ) (c : ℕ) (v : List ℕ) :
    ∀ l : List ℕ,
      ((l.filter (fun i => i ∉ c :: v)).map w).sum ≤ ((l.filter (fun i => i ∉ v)).map w).sum := by
  intro l
  induction l with
  | nil => exact le_refl 0
  | cons a rest ih =>
    rw [List.filter_cons, List.filter_cons]
    by_cases hav : a ∈ v
    · have h1 : ¬ (a ∉ v) := not_not_intro hav
      have h2 : ¬ (a ∉ c :: v) := not_not_intro (List.mem_cons_of_mem c hav)
      rw [if_neg (by simpa using h2), if_neg (by simpa using h1)]
      exact ih
    · by_cases hac : a ∈ c :: v
      · have h2 : ¬ (a ∉ c :: v) := not_not_intro hac
        rw [if_neg (by simpa using h2), if_pos (by simpa using hav)]
        rw [List.map_cons, List.sum_cons]
        exact le_trans ih (Nat.le_add_left _ _)
      · rw [if_pos (by simpa using hac), if_pos (by simpa using hav)]
        rw [List.map_cons, List.map_cons, List.sum_cons, List.sum_cons]
        exact Nat.add_le_add_left ih _

theorem filtered_sum_insert_eq (w : ℕ → ℕ) (c : ℕ) (v : List ℕ) (hcv : c ∉ v) :
    ∀ l : List ℕ, l.Nodup → c ∈ l →
      ((l.filter (fun i => i ∉ v)).map w).sum =
        w c + ((l.filter (fun i => i ∉ c :: v)).map w).sum := by
  intro l
  induction l with
  | nil => intro _ h; exact absurd h (List.not_mem_nil c)
  | cons a rest ih =>
    intro hnd hc
    rw [List.nodup_cons] at hnd
    rw [List.filter_cons, List.filter_cons]
    by_cases hac : a = c
    · subst hac
      have hfc : ∀ x ∈ rest, (decide (x ∉ v)) = (decide (x ∉ a :: v)) := by
        intro x hx
        have hxa : x ≠ a := fun he => hnd.1 (he ▸ hx)
        by_cases hxv : x ∈ v
        · simp [hxv, List.mem_cons_of_mem a hxv]
        · have : x ∉ a :: v := by
            rw [List.mem_cons]
            rintro (he | hv)
            · exact hxa he
            · exact hxv hv
          simp [hxv, this]
      rw [if_pos (by simpa using hcv),
        if_neg (by simp),
        List.map_cons, List.sum_cons, List.filter_congr hfc]
    · have hcrest : c ∈ rest := by
        rcases List.mem_cons.mp hc with he | hr
        · exact absurd he.symm hac
        · exact hr
      by_cases hav : a ∈ v
      · rw [if_neg (by simpa using not_not_intro hav),
          if_neg (by simpa using not_not_intro (List.mem_cons_of_mem c hav))]
        exact ih hnd.2 hcrest
      · have hacv : a ∉ c :: v := by
          rw [List.mem_cons]
          rintro (he | hv)
          · exact hac he
          · exact hav hv
        rw [if_pos (by simpa using hav), if_pos (by simpa using hacv),
          List.map_cons, List.map_cons, List.sum_cons, List.sum_cons,
          ih hnd.2 hcrest, Nat.add_left_comm]

/-- Each loop step that consumes fuel strictly decreases the potential
unvisited-child-slots + pending-length, so above that potential the result
no longer depends on the fuel. -/
theorem collectLoop_stable (d : Dom) :
    ∀ (fuel : ℕ) (pending visited acc : List ℕ),
      (((List.range d.elems.length).filter (fun i => i ∉ visited)).map
          (fun i => (d.childrenOf i).length)).sum + pending.length ≤ fuel →
      collectLoop d (fuel + 1) pending visited acc =
        collectLoop d fuel pending visited acc := by
  intro fuel
  induction fuel with
  | zero =>
    intro pending visited acc h
    cases pending with
    | nil => rfl
    | cons c rest =>
      exfalso
      simp only [List.length_cons] at h
      omega
  | succ g ih =>
    intro pending visited acc h
    cases pending with
    | nil => rfl
    | cons c rest =>
      by_cases hcv : c ∈ visited
      · rw [show collectLoop d (g + 1 + 1) (c :: rest) visited acc
              = collectLoop d (g + 1) rest visited acc from by
            simp only [collectLoop, if_pos hcv],
          show collectLoop d (g + 1) (c :: rest) visited acc
              = collectLoop d g rest visited acc from by
            simp only [collectLoop, if_pos hcv]]
        apply ih
        simp only [List.length_cons] at h
        omega
      · have hunfold : ∀ f, collectLoop d (f + 1) (c :: rest) visited acc =
            collectLoop d f
              (if d.hasAttr c "itemscope" then rest else rest ++ d.childrenOf c)
              (c :: visited)
              (if d.hasAttr c "itemprop" then c :: acc else acc) := by
          intro f
          simp only [collectLoop, if_neg hcv]
        rw [hunfold (g + 1), hunfold g]
        apply ih
        have hle := filtered_sum_insert_le (fun i => (d.childrenOf i).length) c visited
          (List.range d.elems.length)
        have hkey : (((List.range d.elems.length).filter (fun i => i ∉ c :: visited)).map
            (fun i => (d.childrenOf i).length)).sum
              + (rest.length + (d.childrenOf c).length) ≤ g := by
          by_cases hc : c < d.elems.length
          · have heq := filtered_sum_insert_eq (fun i => (d.childrenOf i).length) c visited hcv
              (List.range d.elems.length) (List.nodup_range _) (List.mem_range.mpr hc)
            simp only [] at heq
            simp only [List.length_cons] at h
            omega
          · have hnone : d.elem? c = none := by
              unfold Dom.elem?
              exact List.get?_eq_none.mpr (Nat.le_of_not_lt hc)
            have hch : d.childrenOf c = [] := by
              simp [Dom.childrenOf, hnone]
            simp only [List.length_cons] at h
            rw [hch]
            simp only [List.length_nil, Nat.add_zero]
            omega
        by_cases hscope : d.hasAttr c "itemscope" = true
        · rw [if_pos hscope]
          omega
        · rw [if_neg hscope, List.length_append]
          omega

theorem range_child_sum (l : List Elem) :
    ((List.range l.length).map
        (fun i => (((l.get? i).map (fun e => e.children)).getD []).length)).sum
      = (l.map (fun e => e.children.length)).sum := by
  induction l with
  | nil => rfl
  | cons e t ih =>
    rw [List.length_cons, List.range_succ_eq_map, List.map_cons, List.map_map,
      List.sum_cons, List.map_cons, List.sum_cons]
    refine congrArg (fun s => e.children.length + s) ?_
    rw [← ih]
    rfl

/-- Fuel adequacy: the fuel collectProps supplies to collectLoop is enough —
any extra fuel computes the same property element set, so collectProps is
the limit of the unbounded while loop of the source. -/
theorem collectProps_fuel_adequate (d : Dom) (pending : List ℕ) (extra : ℕ) :
    collectLoop d (pending.length + d.totalChildren + extra) pending [] [] =
      collectProps d pending := by
  induction extra with
  | zero => rfl
  | succ k ih =>
    have hS : (((List.range d.elems.length).filter (fun i => i ∉ ([] : List ℕ))).map
        (fun i => (d.childrenOf i).length)).sum = d.totalChildren := by
      have hf : ((List.range d.elems.length).filter (fun i => i ∉ ([] : List ℕ)))
          = List.range d.elems.length := by
        apply List.filter_eq_self.mpr
        intro a _
        simp
      rw [hf]
      exact range_child_sum d.elems
    have hb : (((List.range d.elems.length).filter (fun i => i ∉ ([] : List ℕ))).map
        (fun i => (d.childrenOf i).length)).sum + pending.length
          ≤ pending.length + d.totalChildren + k := by
      rw [hS]
      omega
    calc collectLoop d (pending.length + d.totalChildren + (k + 1)) pending [] []
        = collectLoop d ((pending.length + d.totalChildren + k) + 1) pending [] [] := rfl
      _ = collectLoop d (pending.length + d.totalChildren + k) pending [] [] :=
          collectLoop_stable d _ pending [] [] hb
      _ = collectProps d pending := ih

/-! ## Association-list lemmas for the meta map -/

/-- List.lookup on a cons cell, with propositional key comparison. -/
theorem lookup_cons {β : Type} (k a : String) (b : β) (rest : List (String × β)) :
    List.lookup k ((a, b) :: rest) = if k = a then some b else List.lookup k rest := by
  by_cases h : k = a
  · simp [List.lookup, h]
  · have hb : (k == a) = false := beq_eq_false_iff_ne.mpr h
    simp [List.lookup, hb, h]

/-- getList on the empty map. -/
theorem getList_nil (k : String) : getList [] k = [] := rfl

/-- getList on a cons cell. -/
theorem getList_cons (k a : String) (vs : List String) (rest) :
    getList ((a, vs) :: rest) k = if k = a then vs else getList rest k := by
  rw [getList, lookup_cons]
  by_cases h : k = a <;> simp [h, getList]

/-- Appending a fresh key to the map extends exactly that key's list. -/
theorem getList_append_new (k' k : String) (v : List String) :
    ∀ (m : List (String × List String)), List.lookup k' m = none →
      getList (m ++ [(k', v)]) k = getList m k ++ (if k' = k then v else []) := by
  intro m
  induction m with
  | nil =>
    intro _
    rw [List.nil_append, getList_cons]
    by_cases h : k = k'
    · simp [h, getList]
    · simp [h, Ne.symm h, getList]
  | cons p rest ih =>
    intro hk'
    rcases p with ⟨a, vs⟩
    rw [lookup_cons] at hk'
    by_cases hpk : k' = a
    · rw [if_pos hpk] at hk'; exact absurd hk' (by simp)
    · rw [if_neg hpk] at hk'
      rw [List.cons_append, getList_cons, getList_cons]
      by_cases hkp : k = a
      · have hk'k : k' ≠ k := fun he => hpk (he ▸ hkp)
        rw [if_pos hkp, if_pos hkp, if_neg hk'k, List.append_nil]
      · rw [if_neg hkp, if_neg hkp]
        exact ih hk'

/-- The in-place update of key k' leaves every other key's lookup alone. -/
theorem lookup_map_other {k k' : String} {v : String} (hne : k ≠ k') :
    ∀ (l : List (String × List String)),
      List.lookup k (l.map (fun p => if p.1 = k' then (p.1, p.2 ++ [v]) else p)) =
        List.lookup k l := by
  intro l
  induction l with
  | nil => rfl
  | cons q qrest ihq =>
    rcases q with ⟨a, vs⟩
    rw [List.map_cons]
    dsimp only
    by_cases hq : a = k'
    · rw [if_pos hq, lookup_cons, lookup_cons]
      by_cases hkq : k = a
      · exact absurd (hkq.trans hq) hne
      · rw [if_neg hkq, if_neg hkq, ihq]
    · rw [if_neg hq, lookup_cons, lookup_cons]
      by_cases hkq : k = a
      · rw [if_pos hkq, if_pos hkq]
      · rw [if_neg hkq, if_neg hkq, ihq]

/-- The in-place push onto an existing key extends exactly that key's
list. -/
theorem getList_map_add (k' k v : String) :
    ∀ (m : List (String × List String)), (List.lookup k' m).isSome →
      getList (m.map (fun p => if p.1 = k' then (p.1, p.2 ++ [v]) else p)) k =
        getList m k ++ (if k' = k then [v] else []) := by
  intro m
  induction m with
  | nil => intro h; simp [List.lookup] at h
  | cons p rest ih =>
    intro hk'
    rcases p with ⟨a, vs⟩
    rw [List.map_cons]
    dsimp only
    by_cases hpk' : a = k'
    · rw [if_pos hpk', getList_cons, getList_cons]
      by_cases hkp : k = a
      · have hkk' : k' = k := by rw [hkp, hpk']
        rw [if_pos hkp, if_pos hkp, if_pos hkk']
      · have hk'k : k' ≠ k := fun he => hkp (by rw [← hpk'] at he; exact he.symm)
        rw [if_neg hkp, if_neg hkp, if_neg hk'k, List.append_nil, getList, getList,
          lookup_map_other (fun he => hk'k he.symm) rest]
    · rw [if_neg hpk', getList_cons, getList_cons]
      by_cases hkp : k = a
      · have hk'k : k' ≠ k := fun he => hpk' (by rw [he, ← hkp])
        rw [if_pos hkp, if_pos hkp, if_neg hk'k, List.append_nil]
      · have hsome : (List.lookup k' rest).isSome := by
          rw [lookup_cons, if_neg (fun he => hpk' he.symm)] at hk'
          exact hk'
        rw [if_neg hkp, if_neg hkp]
        exact ih hsome

/-- addToMap pushes one value onto exactly the written key. -/
theorem getList_addToMap (m : List (String × List String)) (k' v k : String) :
    getList (addToMap m k' v) k = getList m k ++ (if k' = k then [v] else []) := by
  by_cases hs : (List.lookup k' m).isSome
  · rw [addToMap, if_pos hs]
    exact getList_map_add k' k v m hs
  · rw [addToMap, if_neg hs]
    refine getList_append_new k' k [v] m ?_
    cases h : List.lookup k' m with
    | none => rfl
    | some _ => rw [h] at hs; simp at hs


/-- On cyclicItemDoc, folding the property elements [1] reduces to the
recursive extraction of element 1 under the unchanged memory. -/
theorem propsFold_cyclic (f : ℕ → JsRes (Option MicroJson)) :
    propsFold cyclicItemDoc f [1] [] =
      (match f 1 with
       | .fuelOut => .fuelOut
       | .thrown => .thrown
       | .ok none => .ok []
       | .ok (some it) => .ok [("p", [it])]) := by
  cases hf : f 1 with
  | fuelOut => simp +decide [propsFold, hf]
  | thrown => simp +decide [propsFold, hf]
  | ok a =>
    cases a with
    | none => simp +decide [propsFold, hf]
    | some it =>
      simp +decide [propsFold, hf, pushPropAll, pushProp, wsTokens, jsSplitWs, jsSplitWsGo,
        jsTrim, Dom.getAttr?, Dom.elem?, cyclicItemDoc]

/-- The self-referential itemprop item of cyclicItemDoc recurses on itself
with the same (unextended) memory, so no fuel suffices. -/
theorem cyclic_nested_aux : ∀ n, extractMicrodataItem cyclicItemDoc n 1 [] = .fuelOut := by
  intro n
  induction n with
  | zero => rfl
  | succ k ih =>
    rw [extractMicrodataItem]
    have h1 : sortDocOrder
        (collectProps cyclicItemDoc
          (cyclicItemDoc.childrenOf 1 ++
            List.filterMap cyclicItemDoc.byId?
              (jsSplitWs (jsTrim ((cyclicItemDoc.getAttr? 1 "itemref").getD ""))))) = [1] := by
      decide
    simp +decide [h1, propsFold_cyclic, ih]

/-- The top-level item of cyclicItemDoc therefore never finishes either. -/
theorem cyclic_top_aux : ∀ n, extractMicrodataItem cyclicItemDoc n 0 [] = .fuelOut := by
  intro n
  cases n with
  | zero => rfl
  | succ k =>
    rw [extractMicrodataItem]
    have h1 : sortDocOrder (collectProps cyclicItemDoc (cyclicItemDoc.childrenOf 0)) = [1] := by
      decide
    simp +decide [h1, propsFold_cyclic, cyclic_nested_aux k]

/-- C1: the claim says every extraction terminates because the memory set of
ancestor items is extended by copy on each recursive descent.  The source
builds that extended copy (nextMemory) but passes the unextended memory to
the recursive call, so on the two-element document whose nested itemprop
item refers to itself through itemref the recursion never terminates: for
every fuel bound, extract runs out of fuel (a stack overflow in
JavaScript). -/
theorem claimC1_cyclic_microdata_diverges (parse : String → Option Json) (fuel : ℕ) :
    extract (.dom cyclicItemDoc) parse fuel = .fuelOut := by
  rw [extract]
  have hmp : metaPass cyclicItemDoc (Dom.selectTag cyclicItemDoc "META") {} = some {} := by
    decide
  have htop : Dom.topItems cyclicItemDoc = [0] := by decide
  have hmd : microdataPass cyclicItemDoc fuel [0] [] = .fuelOut := by
    rw [microdataPass, cyclic_top_aux fuel]
  simp [hmp, htop, hmd]

unseal Rat.mul Rat.inv Rat.add Rat.sub in
/-- C2 counterexample: on the round-trip document the first image's width is
the number 600 (Number coercion in the source, asserted as a number by the
repository's own tests), not the raw string "600" the claim requires. -/
theorem claimC2_images_width_counterexample :
    (extract (.dom imageRoundTripDoc) (fun _ => none) 1).imagesOf.map
        (List.map WebpageImage.width) = some [some (.num 600), none] ∧
      (some (NumOrStr.num 600) : Option NumOrStr) ≠ some (.str "600") :=
  ⟨by decide, by decide⟩

unseal Rat.mul Rat.inv Rat.add Rat.sub in
/-- C2 as amended: images has length 2; images[0].width is the number 600
(the attribute string coerced by Number, undefined when the coercion gives
NaN); images[1].width is undefined — structured og:image:* properties still
mutate only the most recently appended image and never cross an image
boundary. -/
theorem claimC2_images_width_amended :
    (extract (.dom imageRoundTripDoc) (fun _ => none) 1).imagesOf.map List.length = some 2 ∧
      (extract (.dom imageRoundTripDoc) (fun _ => none) 1).imagesOf.map
        (List.map WebpageImage.width) = some [some (.num 600), none] :=
  ⟨by decide, by decide⟩

/-- C3: the claim (and the repository's own tests) say the extracted item's
type field is the array of all whitespace-split itemtype tokens; the source
stores only the first token, as a plain string, so on a two-token itemtype
the snapshot records just "http://schema.org/Person". -/
theorem claimC3_itemtype_single_token :
    (extract (.dom twoTypeItemDoc) (fun _ => none) 2).microTypesOf =
      some [some "http://schema.org/Person"] := by
  decide

/-- C5: the claim says no exception propagates from the extraction steps for
any document-like input.  A meta tag whose content is "&#f;" reaches
String.fromCodePoint(parseInt("f", 10)) = String.fromCodePoint(NaN) inside
decodeHtmlEntities, which raises a RangeError that escapes extract, for
every parse collaborator and every fuel. -/
theorem claimC5_entity_decode_raises (parse : String → Option Json) (fuel : ℕ) :
    extract (.dom badEntityDoc) parse fuel = .thrown := rfl

theorem contrib_of_decode (d : Dom) (i : ℕ) (k c : String)
    (hc : truthy (d.getAttr? i "content") = true)
    (hd : decodeHtmlEntities ((d.getAttr? i "content").getD "") = some c) :
    metaContrib d i k =
      (if d.getAttr? i "property" = some k ∧ k ≠ "" then [c] else []) ++
        (if d.getAttr? i "name" = some k ∧ k ≠ "" then [c] else []) := by
  simp [metaContrib, hc, hd]

theorem addIf_getList (m : List (String × List String)) (o : Option String) (c k : String) :
    getList (if truthy o then addToMap m (o.getD "") c else m) k =
      getList m k ++ (if o = some k ∧ k ≠ "" then [c] else []) := by
  cases o with
  | none => simp [truthy]
  | some s =>
    by_cases hs : s = ""
    · have ht : truthy (some s) = false := by simp [truthy, hs]
      rw [if_neg (by simp [ht])]
      have hcond : ¬ (some s = some k ∧ k ≠ "") := by
        rintro ⟨he, hk⟩
        injection he with he'
        exact hk (by rw [← he', hs])
      rw [if_neg hcond, List.append_nil]
    · have ht : truthy (some s) = true := by simp [truthy, hs]
      rw [if_pos (by simp [ht]), show (some s).getD "" = s from rfl, getList_addToMap]
      congr 1
      by_cases hsk : s = k
      · rw [if_pos hsk, if_pos ⟨by rw [hsk], by rw [← hsk]; exact hs⟩]
      · rw [if_neg hsk, if_neg (by rintro ⟨he, _⟩; injection he with he'; exact hsk he')]

theorem metaStep_getList (d : Dom) (st : MetaState) (i : ℕ) (st' : MetaState)
    (h : metaStep d st i = some st') (k : String) :
    getList st'.meta k = getList st.meta k ++ metaContrib d i k := by
  by_cases hc : truthy (d.getAttr? i "content") = true
  · cases hd : decodeHtmlEntities ((d.getAttr? i "content").getD "") with
    | none => simp [metaStep, hc, hd] at h
    | some c =>
      simp only [metaStep, hc, hd, not_true, if_neg, if_false] at h
      injection h with h'
      subst h'
      rw [contrib_of_decode d i k c hc hd]
      simp only [apply_ite MetaState.meta]
      rw [ite_self, addIf_getList, addIf_getList, List.append_assoc]
  · have hb : truthy (d.getAttr? i "content") = false := by
      cases hbb : truthy (d.getAttr? i "content")
      · rfl
      · exact absurd hbb hc
    simp only [metaStep, hb] at h
    simp only [Bool.false_eq_true, not_false_iff, if_pos] at h
    injection h with h'
    subst h'
    simp [metaContrib, hb]

theorem metaPass_getList (d : Dom) :
    ∀ (tags : List ℕ) (st₀ st₁ : MetaState), metaPass d tags st₀ = some st₁ →
      ∀ k, getList st₁.meta k = getList st₀.meta k ++ tags.flatMap (fun i => metaContrib d i k) := by
  intro tags
  induction tags with
  | nil =>
    intro st₀ st₁ h k
    simp only [metaPass] at h
    injection h with h'
    subst h'
    simp
  | cons t rest ih =>
    intro st₀ st₁ h k
    simp only [metaPass] at h
    cases hstep : metaStep d st₀ t with
    | none => rw [hstep] at h; simp at h
    | some st'' =>
      rw [hstep] at h
      rw [List.flatMap_cons, ← List.append_assoc,
        ← metaStep_getList d st₀ t st'' hstep k]
      exact ih st'' st₁ h k

theorem extract_ok_parts (d : Dom) (parse : String → Option Json) (fuel : ℕ) (m : WebpageMeta)
    (h : extract (.dom d) parse fuel = .ok m) :
    ∃ ms micro, metaPass d (d.selectTag "META") {} = some ms ∧
      microdataPass d fuel d.topItems [] = .ok micro ∧
      m = { meta := ms.meta, other := titlePass d (linkPass d).other, feeds := feedPass d,
            images := ms.images, jsonld := jsonldLoop parse (ldScriptTexts d) [],
            favicons := (linkPass d).favicons, videos := ms.videos,
            canonicalUrl := canonicalStep d, microdata := micro } := by
  simp only [extract] at h
  cases hms : metaPass d (d.selectTag "META") {} with
  | none => rw [hms] at h; simp at h
  | some ms =>
    rw [hms] at h
    simp only [] at h
    cases hmd : microdataPass d fuel d.topItems [] with
    | fuelOut => rw [hmd] at h; simp at h
    | thrown => rw [hmd] at h; simp at h
    | ok micro =>
      rw [hmd] at h
      simp only [] at h
      injection h with h'
      exact ⟨ms, micro, rfl, rfl, h'.symm⟩

/-- C7: for every document whose extraction returns a snapshot, the value
sequence stored under any meta key is exactly the in-document-order
concatenation of each meta tag's contributions: nothing without a truthy
content, and otherwise the decoded content pushed once for a matching
property attribute and once for a matching name attribute, independently
and additively, with keys never normalised or prefix-stripped. -/
theorem claimC7_meta_additive (d : Dom) (parse : String → Option Json) (fuel : ℕ)
    (m : WebpageMeta) (h : extract (.dom d) parse fuel = .ok m) (k : String) :
    getList m.meta k = (d.selectTag "META").flatMap (fun i => metaContrib d i k) := by
  obtain ⟨ms, micro, hms, hmd, hm⟩ := extract_ok_parts d parse fuel m h
  subst hm
  have := metaPass_getList d (d.selectTag "META") {} ms hms k
  simpa [getList] using this

/-- C7 witness: on the three-tag document, og:X holds C then D in document
order (property tag then name tag), and og:Y holds E twice from the single
tag that carries both attributes. -/
theorem claimC7_meta_additive_witness :
    getList ({ meta := [("og:X", ["C", "D"]), ("og:Y", ["E", "E"])] } : WebpageMeta).meta "og:X" =
        ["C", "D"] ∧
      getList ({ meta := [("og:X", ["C", "D"]), ("og:Y", ["E", "E"])] } : WebpageMeta).meta
          "og:Y" = ["E", "E"] ∧
      getList ({ meta := [("og:X", ["C", "D"]), ("og:Y", ["E", "E"])] } : WebpageMeta).meta
          "og:X" = (additiveMetaDoc.selectTag "META").flatMap
            (fun i => metaContrib additiveMetaDoc i "og:X") := by
  refine ⟨by decide, by decide, ?_⟩
  exact claimC7_meta_additive additiveMetaDoc (fun _ => none) 1 _ rfl "og:X"

/-- C10: a meta tag with no property attribute never touches the images or
videos sequences — records are built from the property attribute only — yet
its decoded content is still recorded under the name attribute's key in the
meta map, per the usual contribution rule. -/
theorem claimC10_name_only_no_image_record (d : Dom) (st : MetaState) (i : ℕ) (st' : MetaState)
    (hprop : d.getAttr? i "property" = none) (h : metaStep d st i = some st') :
    st'.images = st.images ∧ st'.videos = st.videos ∧
      ∀ k, getList st'.meta k = getList st.meta k ++ metaContrib d i k := by
  have h₀ := h
  refine ⟨?_, ?_, fun k => metaStep_getList d st i st' h₀ k⟩ <;>
  · by_cases hc : truthy (d.getAttr? i "content") = true
    · cases hd : decodeHtmlEntities ((d.getAttr? i "content").getD "") with
      | none => simp [metaStep, hc, hd] at h
      | some c =>
        simp only [metaStep, hc, hd, hprop, not_true, if_neg, if_false] at h
        simp only [truthy, Bool.false_eq_true, false_and, if_false] at h
        injection h with h'
        subst h'
        rfl
    · have hb : truthy (d.getAttr? i "content") = false := by
        cases hbb : truthy (d.getAttr? i "content")
        · rfl
        · exact absurd hbb hc
      simp only [metaStep, hb] at h
      simp only [Bool.false_eq_true, not_false_iff, if_pos] at h
      injection h with h'
      subst h'
      rfl

/-- C10 witness: on the document whose only meta tag is
name="og:image" content="u", the step leaves images and videos empty, the
meta map gains u under og:image, and so the snapshot's image accessor
returns u while the images sequence stays empty. -/
theorem claimC10_name_only_witness :
    ({ meta := [("og:image", ["u"])] } : MetaState).images = ({} : MetaState).images ∧
      ({ meta := [("og:image", ["u"])] } : MetaState).videos = ({} : MetaState).videos ∧
      getList ({ meta := [("og:image", ["u"])] } : MetaState).meta "og:image" =
        getList ({} : MetaState).meta "og:image" ++ metaContrib nameOnlyImageDoc 0 "og:image" ∧
      (match extract (.dom nameOnlyImageDoc) (fun _ => none) 1 with
        | .ok m => some (m.image, m.images)
        | _ => none) = some (some "u", []) := by
  obtain ⟨h1, h2, h3⟩ := claimC10_name_only_no_image_record nameOnlyImageDoc {} 0
    { meta := [("og:image", ["u"])] } (by decide) (by decide)
  exact ⟨h1, h2, h3 "og:image", by decide⟩

/-- The canonical step of the source agrees with the amended claim: it is
the first canonical link element's href, kept only when non-empty. -/
theorem canonicalStep_eq_amended (d : Dom) : canonicalStep d = canonicalClaimAmended d := by
  rw [canonicalStep, canonicalClaimAmended]
  cases h : (d.selectTagAttrEq "LINK" "rel" "canonical").head? with
  | none => rfl
  | some i =>
    cases ha : d.getAttr? i "href" with
    | none => simp [orUndef, ha]
    | some s => by_cases hs : s = "" <;> simp [orUndef, ha, hs]

/-- C8 counterexample: on the document whose first canonical link has an
empty href and whose second has a non-empty one, the snapshot's
canonicalUrl is absent, while the claim says it is the second link's
href. -/
theorem claimC8_canonical_counterexample :
    (extract (.dom twoCanonicalDoc) (fun _ => none) 1).canonicalOf = some none ∧
      canonicalClaimStated twoCanonicalDoc = some "https://b.example/" ∧
      (none : Option String) ≠ some "https://b.example/" :=
  ⟨by decide, by decide, by decide⟩

/-- C8 as amended: for every document whose extraction returns a snapshot,
canonicalUrl is the href of the first link rel="canonical" element when
that href is non-empty, and absent otherwise; later canonical links are
never consulted. -/
theorem claimC8_canonical_amended (d : Dom) (parse : String → Option Json) (fuel : ℕ)
    (m : WebpageMeta) (h : extract (.dom d) parse fuel = .ok m) :
    m.canonicalUrl = canonicalClaimAmended d := by
  obtain ⟨ms, micro, hms, hmd, hm⟩ := extract_ok_parts d parse fuel m h
  subst hm
  exact canonicalStep_eq_amended d

/-- C8 witness: the amended rule applied to the two-canonical document
gives an absent canonicalUrl. -/
theorem claimC8_canonical_witness :
    ∃ m, extract (.dom twoCanonicalDoc) (fun _ => none) 1 = .ok m ∧
      m.canonicalUrl = canonicalClaimAmended twoCanonicalDoc ∧
      canonicalClaimAmended twoCanonicalDoc = none := by
  refine ⟨_, rfl, claimC8_canonical_amended twoCanonicalDoc (fun _ => none) 1 _ rfl, by decide⟩

/-- The JSON-LD loop is the one-level flatten of the claim. -/
theorem jsonldLoop_eq_claim (parse : String → Option Json) :
    ∀ (txts : List String) (acc : List Json),
      jsonldLoop parse txts acc = acc ++ jsonldClaim parse txts := by
  intro txts
  induction txts with
  | nil => intro acc; simp [jsonldLoop, jsonldClaim]
  | cons t rest ih =>
    intro acc
    rw [jsonldLoop]
    have hclaim : jsonldClaim parse (t :: rest) =
        (match parse t with
          | some (Json.arr xs) => xs
          | some j => [j]
          | none => []) ++ jsonldClaim parse rest := by
      simp [jsonldClaim]
    rw [hclaim]
    cases hp : parse t with
    | none => simpa using ih acc
    | some j =>
      cases j
      all_goals exact (ih _).trans (by simp [List.append_assoc])

/-- C9: for every document whose extraction returns a snapshot, jsonld is
exactly the per-script one-level flatten: a script whose text parses to an
array contributes its elements individually (nested arrays preserved
as-is), any other parsed value contributes itself, and an unparsable script
contributes nothing without aborting later scripts. -/
theorem claimC9_jsonld_flatten (d : Dom) (parse : String → Option Json) (fuel : ℕ)
    (m : WebpageMeta) (h : extract (.dom d) parse fuel = .ok m) :
    m.jsonld = jsonldClaim parse (ldScriptTexts d) := by
  obtain ⟨ms, micro, hms, hmd, hm⟩ := extract_ok_parts d parse fuel m h
  subst hm
  simpa using jsonldLoop_eq_claim parse (ldScriptTexts d) []

/-- C9 witness: on the three-script document (bad JSON, a two-element
array, an object) the snapshot's jsonld has exactly the two array elements
followed by the object — the bad script contributed nothing and did not
abort the rest. -/
theorem claimC9_jsonld_witness :
    ∃ m, extract (.dom jsonldDoc) jsonldDocParse 1 = .ok m ∧
      m.jsonld = jsonldClaim jsonldDocParse (ldScriptTexts jsonldDoc) ∧
      jsonldClaim jsonldDocParse (ldScriptTexts jsonldDoc) = [.num 1, .num 2, .obj []] := by
  refine ⟨_, rfl, claimC9_jsonld_flatten jsonldDoc jsonldDocParse 1 _ rfl, rfl⟩


theorem str_data_inj {a b : String} (h : a.data = b.data) : a = b := by
  cases a
  cases b
  exact congrArg String.mk h

theorem jsSlice_inj {pfx a b : String} (ha : jsStartsWith a pfx = true)
    (hb : jsStartsWith b pfx = true)
    (h : jsSlice a pfx.data.length = jsSlice b pfx.data.length) : a = b := by
  rw [jsStartsWith] at ha hb
  obtain ⟨ta, hta⟩ := List.isPrefixOf_iff_prefix.mp ha
  obtain ⟨tb, htb⟩ := List.isPrefixOf_iff_prefix.mp hb
  rw [jsSlice, jsSlice] at h
  have hda : a.data.drop pfx.data.length = ta := by rw [← hta, List.drop_left]
  have hdb : b.data.drop pfx.data.length = tb := by rw [← htb, List.drop_left]
  rw [hda, hdb] at h
  have htt : ta = tb := by
    have h2 := congrArg String.data h
    simpa [List.asString] using h2
  exact str_data_inj (by rw [← hta, ← htb, htt])

theorem lookup_append_single_none {β : Type} (k k' : String) (v : β) :
    ∀ (m : List (String × β)), List.lookup k' m = none → k' ≠ k →
      List.lookup k' (m ++ [(k, v)]) = none := by
  intro m
  induction m with
  | nil =>
    intro _ hne
    rw [List.nil_append, lookup_cons, if_neg hne]
    rfl
  | cons p rest ih =>
    intro hm hne
    rcases p with ⟨a, b⟩
    rw [lookup_cons] at hm
    by_cases hka : k' = a
    · rw [if_pos hka] at hm; exact absurd hm (by simp)
    · rw [if_neg hka] at hm
      rw [List.cons_append, lookup_cons, if_neg hka]
      exact ih hm hne

theorem objSet_append {m : List (String × MetaVal)} {k : String} (v : MetaVal)
    (h : List.lookup k m = none) : objSet m k v = m ++ [(k, v)] := by
  rw [objSet, if_neg (by rw [h]; simp)]

theorem ogFold (pfx : String) :
    ∀ (entries : List (String × List String)) (acc : List (String × MetaVal)),
      (entries.map Prod.fst).Nodup →
      (∀ p ∈ entries, jsStartsWith p.1 pfx = true → jsSlice p.1 pfx.data.length ≠ "" →
        List.lookup (jsSlice p.1 pfx.data.length) acc = none) →
      entries.foldl
        (fun acc p =>
          if jsStartsWith p.1 pfx then
            if jsSlice p.1 pfx.data.length ≠ "" then
              objSet acc (jsSlice p.1 pfx.data.length) (MetaVal.ofList p.2)
            else acc
          else acc) acc =
        acc ++ (entries.filter
            (fun p => jsStartsWith p.1 pfx ∧ jsSlice p.1 pfx.data.length ≠ "")).map
          (fun p => (jsSlice p.1 pfx.data.length, MetaVal.ofList p.2)) := by
  intro entries
  induction entries with
  | nil => intro acc _ _; simp
  | cons p rest ih =>
    intro acc hnd hfresh
    rw [List.map_cons, List.nodup_cons] at hnd
    rw [List.foldl_cons, List.filter_cons]
    by_cases hsw : jsStartsWith p.1 pfx = true
    · by_cases hsl : jsSlice p.1 pfx.data.length = ""
      · have hcond : (decide (jsStartsWith p.1 pfx = true ∧
            jsSlice p.1 pfx.data.length ≠ "") = false) := by
          rw [decide_eq_false_iff_not]
          rintro ⟨-, h2⟩
          exact h2 hsl
        have hslL : jsSlice p.1 pfx.length = "" := hsl
        have hcondL : (decide (jsStartsWith p.1 pfx = true ∧
            jsSlice p.1 pfx.length ≠ "") = false) := hcond
        rw [if_pos hsw, if_neg (by simp [hsl, hslL]), if_neg (by simp [hcond, hcondL])]
        exact ih acc hnd.2 (fun q hq => hfresh q (List.mem_cons_of_mem p hq))
      · have hcond : (decide (jsStartsWith p.1 pfx = true ∧
            jsSlice p.1 pfx.data.length ≠ "") = true) := by
          rw [decide_eq_true_eq]
          exact ⟨hsw, hsl⟩
        have hk : List.lookup (jsSlice p.1 pfx.data.length) acc = none :=
          hfresh p (List.mem_cons_self p rest) hsw hsl
        have hcondL : (decide (jsStartsWith p.1 pfx = true ∧
            jsSlice p.1 pfx.length ≠ "") = true) := hcond
        rw [if_pos hsw, if_pos hsl, objSet_append _ hk, if_pos (by simp [hcond, hcondL])]
        have hfresh' : ∀ q ∈ rest, jsStartsWith q.1 pfx = true →
            jsSlice q.1 pfx.data.length ≠ "" →
            List.lookup (jsSlice q.1 pfx.data.length)
              (acc ++ [(jsSlice p.1 pfx.data.length, MetaVal.ofList p.2)]) = none := by
          intro q hq hqsw hqsl
          refine lookup_append_single_none _ _ _ acc
            (hfresh q (List.mem_cons_of_mem p hq) hqsw hqsl) ?_
          intro he
          have hq1 : q.1 = p.1 := jsSlice_inj hqsw hsw he
          exact hnd.1 (hq1 ▸ List.mem_map_of_mem Prod.fst hq)
        rw [ih _ hnd.2 hfresh', List.map_cons, List.append_assoc, List.singleton_append]
    · have hsw' : jsStartsWith p.1 pfx = false := by
        cases hb : jsStartsWith p.1 pfx
        · rfl
        · exact absurd hb hsw
      have hcond : (decide (jsStartsWith p.1 pfx = true ∧
          jsSlice p.1 pfx.data.length ≠ "") = false) := by
        rw [decide_eq_false_iff_not]
        rintro ⟨h1, -⟩
        exact hsw h1
      have hcondL : (decide (jsStartsWith p.1 pfx = true ∧
          jsSlice p.1 pfx.length ≠ "") = false) := hcond
      rw [if_neg (by simp [hsw']), if_neg (by simp [hcond, hcondL])]
      exact ih acc hnd.2 (fun q hq => hfresh q (List.mem_cons_of_mem p hq))

/-- C6 counterexample: on the snapshot with og:type article and a meta key
exactly "article:", the getter skips the empty projected name while the
claim as stated would store a property under the empty key. -/
theorem claimC6_og_object_counterexample :
    WebpageMeta.openGraphObject ogObjectSnap =
        [("tag", .many ["t1", "t2"]), ("author", .one "a")] ∧
      openGraphObjectClaimStated ogObjectSnap =
        [("tag", .many ["t1", "t2"]), ("author", .one "a"), ("", .one "weird")] ∧
      ([("tag", MetaVal.many ["t1", "t2"]), ("author", MetaVal.one "a")] :
          List (String × MetaVal)) ≠
        [("tag", .many ["t1", "t2"]), ("author", .one "a"), ("", .one "weird")] :=
  ⟨by decide, by decide, by decide⟩

/-- C6 as amended: for every snapshot whose meta keys are distinct (a Map
invariant), openGraphObject is empty when og:type is absent, and otherwise
projects every meta key that extends the dot-truncated type prefix to a
non-empty suffix, collapsing single-valued properties to bare values and
multi-valued ones to arrays; the key equal to the bare prefix itself is
skipped. -/
theorem claimC6_og_object_amended (m : WebpageMeta)
    (hnd : (m.meta.map Prod.fst).Nodup) :
    m.openGraphObject = openGraphObjectClaimAmended m := by
  rw [WebpageMeta.openGraphObject, openGraphObjectClaimAmended]
  cases hlk : m.meta.lookup "og:type" with
  | none => rfl
  | some typeArr =>
    cases typeArr with
    | nil => rfl
    | cons t0 ts =>
      have h := ogFold (ogTruncType t0 ++ ":") m.meta [] hnd (fun q _ _ _ => rfl)
      simpa using h

/-- C6 witness: the amended claim applied to the article snapshot, whose
article:tag pair is an array only because of multiplicity and whose
article:author is a bare string. -/
theorem claimC6_og_object_witness :
    (ogObjectSnap.meta.map Prod.fst).Nodup ∧
      WebpageMeta.openGraphObject ogObjectSnap = openGraphObjectClaimAmended ogObjectSnap ∧
      openGraphObjectClaimAmended ogObjectSnap =
        [("tag", .many ["t1", "t2"]), ("author", .one "a")] :=
  ⟨by decide, claimC6_og_object_amended ogObjectSnap (by decide), by decide⟩


theorem pickLargest_pairs (pngs : List WebpageFavicon) :
    ∀ (acc : Option WebpageFavicon × ℚ),
      pngs.foldl
        (fun acc f =>
          (faviconAreas f).foldl (fun a2 area => if a2.2 < area then (some f, area) else a2) acc)
        acc =
      (pngAreaPairs pngs).foldl (fun a2 p => if a2.2 < p.2 then (some p.1, p.2) else a2) acc := by
  induction pngs with
  | nil => intro acc; rfl
  | cons f rest ih =>
    intro acc
    rw [List.foldl_cons, ih]
    rw [show pngAreaPairs (f :: rest) =
        ((faviconAreas f).map (fun a => (f, a))) ++ pngAreaPairs rest from by
      rw [pngAreaPairs, List.flatMap_cons, pngAreaPairs]]
    rw [List.foldl_append, List.foldl_map]

theorem le_maxfold (ps : List (WebpageFavicon × ℚ)) :
    ∀ b : ℚ, b ≤ ps.foldl (fun m p => max m p.2) b := by
  induction ps with
  | nil => intro b; exact le_refl b
  | cons p rest ih =>
    intro b
    rw [List.foldl_cons]
    exact le_trans (le_max_left b p.2) (ih (max b p.2))

theorem maxfold_attained (ps : List (WebpageFavicon × ℚ)) :
    ∀ b : ℚ, b < ps.foldl (fun m p => max m p.2) b →
      ∃ p ∈ ps, p.2 = ps.foldl (fun m p => max m p.2) b := by
  induction ps with
  | nil => intro b hb; exact absurd hb (lt_irrefl b)
  | cons p rest ih =>
    intro b hb
    rw [List.foldl_cons] at hb ⊢
    by_cases hbp : b < p.2
    · rw [max_eq_right hbp.le] at hb ⊢
      by_cases hpm : p.2 = rest.foldl (fun m p => max m p.2) p.2
      · exact ⟨p, List.mem_cons_self p rest, hpm⟩
      · have hlt : p.2 < rest.foldl (fun m p => max m p.2) p.2 :=
          lt_of_le_of_ne (le_maxfold rest p.2) hpm
        obtain ⟨q, hq, hq2⟩ := ih p.2 hlt
        exact ⟨q, List.mem_cons_of_mem p hq, hq2⟩
    · rw [max_eq_left (not_lt.mp hbp)] at hb ⊢
      obtain ⟨q, hq, hq2⟩ := ih b hb
      exact ⟨q, List.mem_cons_of_mem p hq, hq2⟩

theorem foldl_pickstep_eq (ps : List (WebpageFavicon × ℚ)) :
    ∀ (accF : Option WebpageFavicon) (b : ℚ),
      ps.foldl (fun a2 p => if a2.2 < p.2 then (some p.1, p.2) else a2) (accF, b) =
        (if b < ps.foldl (fun m p => max m p.2) b then
          ((ps.find? (fun p => decide (p.2 = ps.foldl (fun m p => max m p.2) b))).map Prod.fst,
            ps.foldl (fun m p => max m p.2) b)
        else (accF, b)) := by
  induction ps with
  | nil =>
    intro accF b
    rw [List.foldl_nil, List.foldl_nil, if_neg (lt_irrefl b)]
  | cons p rest ih =>
    intro accF b
    rw [List.foldl_cons, List.foldl_cons]
    by_cases hbp : b < p.2
    · rw [max_eq_right hbp.le]
      dsimp only
      rw [if_pos hbp, ih (some p.1) p.2]
      have hM : p.2 ≤ rest.foldl (fun m p => max m p.2) p.2 := le_maxfold rest p.2
      rw [if_pos (lt_of_lt_of_le hbp hM)]
      by_cases hpm : p.2 = rest.foldl (fun m p => max m p.2) p.2
      · rw [if_neg (by rw [← hpm]; exact lt_irrefl p.2)]
        rw [List.find?_cons_of_pos _ (by simpa using hpm), ← hpm]
        rfl
      · rw [if_pos (lt_of_le_of_ne hM hpm)]
        rw [List.find?_cons_of_neg _ (by simpa using hpm)]
    · rw [max_eq_left (not_lt.mp hbp)]
      dsimp only
      rw [if_neg hbp, ih accF b]
      by_cases hbM : b < rest.foldl (fun m p => max m p.2) b
      · rw [if_pos hbM, if_pos hbM]
        have hpne : p.2 ≠ rest.foldl (fun m p => max m p.2) b := by
          intro he
          rw [← he] at hbM
          exact hbp hbM
        rw [List.find?_cons_of_neg _ (by simpa using hpne)]
      · rw [if_neg hbM, if_neg hbM]

theorem pngByClaimAmended_bridge (pngs : List WebpageFavicon) :
    pngByClaimAmended pngs =
      (match (pickLargestPng pngs).1 with
        | some p => some p
        | none => pngs.head?) := by
  rw [pickLargestPng, pickLargest_pairs pngs (none, 0),
    foldl_pickstep_eq (pngAreaPairs pngs) none 0, pngByClaimAmended]
  by_cases h0 : (0 : ℚ) < (pngAreaPairs pngs).foldl (fun m p => max m p.2) 0
  · rw [if_pos h0, if_pos h0]
    obtain ⟨q, hq, hq2⟩ := maxfold_attained (pngAreaPairs pngs) 0 h0
    have hsome : ((pngAreaPairs pngs).find?
        (fun p => decide (p.2 = (pngAreaPairs pngs).foldl (fun m p => max m p.2) 0))).isSome := by
      rw [List.find?_isSome]
      exact ⟨q, hq, by simpa using hq2⟩
    obtain ⟨r, hr⟩ := Option.isSome_iff_exists.mp hsome
    rw [hr]
    rfl
  · rw [if_neg h0, if_neg h0]

theorem find?_congr {α : Type} (p q : α → Bool) :
    ∀ l : List α, (∀ x ∈ l, p x = q x) → l.find? p = l.find? q := by
  intro l
  induction l with
  | nil => intro _; rfl
  | cons a rest ih =>
    intro h
    have ha := h a (List.mem_cons_self a rest)
    cases hp : p a with
    | true =>
      rw [List.find?_cons_of_pos _ hp, List.find?_cons_of_pos _ (by rw [← ha]; exact hp)]
    | false =>
      rw [List.find?_cons_of_neg _ (by simp [hp]),
        List.find?_cons_of_neg _ (by simp [← ha, hp]),
        ih (fun x hx => h x (List.mem_cons_of_mem a hx))]

theorem mem_of_lookup {β : Type} (k : String) (v : β) :
    ∀ m : List (String × β), List.lookup k m = some v → (k, v) ∈ m := by
  intro m
  induction m with
  | nil => intro h; simp [List.lookup] at h
  | cons p rest ih =>
    rcases p with ⟨a, b⟩
    intro h
    rw [lookup_cons] at h
    by_cases hk : k = a
    · rw [if_pos hk] at h
      injection h with h'
      subst h'
      subst hk
      exact List.mem_cons_self _ _
    · rw [if_neg hk] at h
      exact List.mem_cons_of_mem _ (ih h)

/-- C4 as amended: for every snapshot built from the record constructors
(non-empty hrefs and non-empty stored other values), the favicon getter
follows exactly the claimed precedence, with the one repair that only a
positive declared W*H area counts as a declared size — PNG candidates whose
parseable size tokens all have zero area fall back, together with sizeless
ones, to the first PNG in document order. -/
theorem claimC4_favicon_amended (m : WebpageMeta)
    (hf : ∀ f ∈ m.favicons, f.href ≠ "")
    (ho : ∀ p ∈ m.other, p.2 ≠ "") :
    m.favicon = faviconClaimAmended m := by
  rw [WebpageMeta.favicon, faviconClaimAmended, faviconSelect]
  cases hsvg : m.favicons.find? isSvgIcon with
  | some svg => rfl
  | none =>
    dsimp only
    rw [pngByClaimAmended_bridge]
    cases hp : (pickLargestPng (m.favicons.filter isPngIcon)).1 with
    | some p => rfl
    | none =>
      cases hpngs : m.favicons.filter isPngIcon with
      | cons q qs => rfl
      | nil =>
        have hico : m.favicons.find? isIcoIcon = m.favicons.find? isIcoIconClaim := by
          apply find?_congr
          intro f hfm
          rw [isIcoIcon, isIcoIconClaim]
          have hh := hf f hfm
          simp [hh]
        rw [hico]
        cases hfind : m.favicons.find? isIcoIconClaim with
        | some ico => rfl
        | none =>
          cases hicon : m.other.lookup "icon" with
          | some v =>
            have hv : v ≠ "" := ho ("icon", v) (mem_of_lookup _ _ _ hicon)
            simp [truthy, hv]
          | none =>
            cases hsc : m.other.lookup "shortcut icon" with
            | some v =>
              have hv : v ≠ "" := ho ("shortcut icon", v) (mem_of_lookup _ _ _ hsc)
              simp [truthy, hv]
            | none => simp [truthy]

unseal Rat.mul Rat.inv Rat.add Rat.sub in
/-- C4 counterexample: with one sizeless PNG followed by one declaring
"0x0", the only parseable declared area is 0, so the claim as stated picks
the declaring PNG ("/b.png"); the source's strict greater-than-zero scan
declares no winner and falls back to the first PNG ("/a.png"). -/
theorem claimC4_favicon_counterexample :
    WebpageMeta.favicon faviconSnapZero = "/a.png" ∧
      faviconClaimStated faviconSnapZero = "/b.png" ∧
      ("/a.png" : String) ≠ "/b.png" :=
  ⟨by decide, by decide, by decide⟩

unseal Rat.mul Rat.inv Rat.add Rat.sub in
/-- C4 witness: the amended precedence applied to the two claim scenarios —
with SVG + 16x16 PNG + 64x64 PNG + ICO the SVG href wins, and with the SVG
removed the largest-area 64x64 PNG wins. -/
theorem claimC4_favicon_witness :
    ((∀ f ∈ faviconSnapA.favicons, f.href ≠ "") ∧
      WebpageMeta.favicon faviconSnapA = faviconClaimAmended faviconSnapA ∧
      faviconClaimAmended faviconSnapA = "/favicon.svg") ∧
      ((∀ f ∈ faviconSnapB.favicons, f.href ≠ "") ∧
        WebpageMeta.favicon faviconSnapB = faviconClaimAmended faviconSnapB ∧
        faviconClaimAmended faviconSnapB = "/favicon-64.png") :=
  ⟨⟨by decide, claimC4_favicon_amended faviconSnapA (by decide) (by decide), by decide⟩,
    ⟨by decide, claimC4_favicon_amended faviconSnapB (by decide) (by decide), by decide⟩⟩


end WME
